import Mathlib

/-!
Verification of the fcache library (a filesystem-backed cache of
producer-generated files) against its natural-language specification.

The embedding models the filesystem explicitly: absolute paths are lists of
path components (strings) counted from the filesystem root `[]` ("/"), a
filesystem state `Fs` is a list of existing directories together with a list
of regular files carrying a modification time and byte content.  Time is an
explicit `now : Nat` parameter (seconds); symlinks, permissions, directory
modification times and non-UTF-8 paths are outside the model, and Unicode
whitespace beyond ASCII is approximated by `Char.isWhitespace`.

Sources embedded:
  * `src/lib.rs`, `InnerDirCache::get_lazy` / `InnerDirCache::get`
    (path validation, traversal-checked parent walk);
  * `src/file.rs`, `CacheLazyFile` (`new`, `create`, `open`, `refresh`,
    `force_refresh`, `is_valid`, `is_invalid`, `lock`, `unlock`, `remove`,
    `init`, `with_refresh_interval`, `with_default_refresh_interval`) and
    the `CacheFile` wrapper;
  * `src/result.rs`, the `Error` enum.
-/

namespace Fcache

/-- I/O error kinds, mirroring the `std::io::Error` kinds the code can hit. -/
inductive IoError where
  | notFound
  | alreadyExists
  | notADir
  | other
  deriving DecidableEq, Repr

/-- The error enum of `src/result.rs`.  Payloads are kept only where a claim
inspects them; `PathTraversal`'s path payloads are dropped. -/
inductive Error where
  | notADirectory
  | pathTraversal
  | invalidPath (path : String)
  | noParentDirectory
  | fileAlreadyExists (path : List String)
  | fileAlreadyLocked
  | fileAlreadyUnlocked
  | callback (msg : String)
  | systemTime
  | ioError (e : IoError)
  deriving DecidableEq, Repr

/-- A regular file on disk: absolute path, last-modified time, byte content. -/
structure FileEntry where
  path : List String
  mtime : Nat
  content : List Nat
  deriving DecidableEq, Repr

/-- Filesystem state: the set of existing directories and regular files. -/
structure Fs where
  dirs : List (List String)
  files : List FileEntry
  deriving DecidableEq, Repr

/-- First file entry at path `p` (models `fs::metadata` / opening a file). -/
def lookupFile : List FileEntry → List String → Option FileEntry
  | [], _ => none
  | q :: rest, p => if q.path = p then some q else lookupFile rest p

/-- `Path::exists`: the path names an existing directory or regular file. -/
def pathExists (fs : Fs) (p : List String) : Prop :=
  p ∈ fs.dirs ∨ (lookupFile fs.files p).isSome

instance (fs : Fs) (p : List String) : Decidable (pathExists fs p) := by
  unfold pathExists; infer_instance

/-- `read_dir(p).next().is_some()`: `p` has at least one child entry. -/
def hasChild (fs : Fs) (p : List String) : Bool :=
  fs.dirs.any (fun q => decide (q ≠ [] ∧ q.dropLast = p)) ||
    fs.files.any (fun q => decide (q.path ≠ [] ∧ q.path.dropLast = p))

/-- Well-formed filesystem: the root `[]` exists, directories are closed
under parents, every file hangs off an existing directory, and no path is
both a directory and a file. -/
def WF (fs : Fs) : Prop :=
  [] ∈ fs.dirs
    ∧ (∀ p ∈ fs.dirs, p.dropLast ∈ fs.dirs)
    ∧ (∀ q ∈ fs.files, q.path ≠ [] ∧ q.path.dropLast ∈ fs.dirs)
    ∧ (∀ p ∈ fs.dirs, lookupFile fs.files p = none)

instance (fs : Fs) : Decidable (WF fs) := by
  unfold WF; infer_instance

/-- The producer callback: the bytes it writes to the handle it is given,
and whether it then returns success (`none`) or a user error (`some msg`).
A producer invocation writes `written` from offset 0 of a file that is empty
at that point (freshly created, or truncated), then returns `result`. -/
structure Callback where
  written : List Nat
  result : Option String
  deriving DecidableEq, Repr

/-- A cache entry in the Lazy phase (`CacheLazyFile` of `src/file.rs`).
The borrowed `cache_root` / `cache_refresh_interval` fields are stored as
values. -/
structure CacheLazyFile where
  path : List String
  callback : Callback
  refresh_interval : Nat
  cache_root : List String
  cache_refresh_interval : Nat
  locked : Bool
  deriving DecidableEq, Repr

/-- A cache entry in the Initialized phase (`CacheFile`): a pure wrapper. -/
structure CacheFile where
  inner : CacheLazyFile
  deriving DecidableEq, Repr

/-- Result of a filesystem-touching entry operation: the filesystem after
the call, how many times the producer was invoked, and the outcome. -/
structure FsOut (α : Type) where
  fs : Fs
  calls : Nat
  out : Except Error α
  deriving Repr

/-! ## Path parsing (`std::path::Path::components` on Unix, relative paths) -/

/-- One component of a relative path, as produced by `Path::components`. -/
inductive Component where
  | curDir
  | parentDir
  | normal (name : String)
  deriving DecidableEq, Repr

/-- Split a character list on `'/'` (the Unix path separator). -/
def splitOnSlash : List Char → List (List Char)
  | [] => [[]]
  | c :: cs =>
    if c = '/' then [] :: splitOnSlash cs
    else
      match splitOnSlash cs with
      | [] => [[c]]
      | p :: ps => (c :: p) :: ps

/-- Classify one non-empty piece that is not a lone `"."`. -/
def toComponent (p : List Char) : Component :=
  if p = ['.', '.'] then Component.parentDir else Component.normal (String.mk p)

/-- `Path::components` for a relative Unix path: empty pieces are dropped,
`"."` pieces are dropped except in leading position, `".."` is `parentDir`.
Leading-separator (absolute) inputs are outside the model. -/
def parseComponents (s : String) : List Component :=
  match (splitOnSlash s.data).filter (fun p => p ≠ []) with
  | [] => []
  | first :: rest =>
    let tail := (rest.filter (fun p => p ≠ ['.'])).map toComponent
    (if first = ['.'] then Component.curDir else toComponent first) :: tail

/-- `path.to_str().is_some_and(|p| p.ends_with('/'))`. -/
def endsWithSlash (s : String) : Bool :=
  decide (s.data.getLast? = some '/')

/-- `name.trim() == ""`: every character is whitespace. -/
def isBlank (cs : List Char) : Bool :=
  cs.all Char.isWhitespace

/-! ## The sandboxed parent walk of `InnerDirCache::get_lazy`

The Rust loop pushes each parent component onto the accumulated `PathBuf`,
creates the directory if missing, canonicalizes, and checks the result is
still prefixed by the canonical root.  With no symlinks, the operating
system's resolution of the accumulated raw path is exactly the canonical
path tracked incrementally here: `..` pops one component (and `/..` stays
`/`), `.` is a no-op, a normal name descends.  `exists`/`create_dir` on a
raw path whose last component is `..` or `.` require the path up to that
component to resolve to a directory. -/

/-- One iteration of the loop: push `c`, create the directory if missing,
canonicalize, and check the canonical root is still a prefix.  `canon` is
the canonical form of the accumulated path (an existing node). -/
def walkStep (fs : Fs) (root canon : List String) :
    Component → Fs × Except Error (List String)
  | Component.curDir =>
    -- raw path `canon/.`: resolvable only through a directory
    if canon ∈ fs.dirs then
      if root <+: canon then (fs, Except.ok canon) else (fs, Except.error Error.pathTraversal)
    else (fs, Except.error (Error.ioError IoError.notADir))
  | Component.parentDir =>
    -- raw path `canon/..`: resolvable only through a directory; pops one level
    if canon ∈ fs.dirs then
      let q := canon.dropLast
      if root <+: q then (fs, Except.ok q) else (fs, Except.error Error.pathTraversal)
    else (fs, Except.error (Error.ioError IoError.notADir))
  | Component.normal n =>
    let q := canon ++ [n]
    if pathExists fs q then
      if root <+: q then (fs, Except.ok q) else (fs, Except.error Error.pathTraversal)
    else
      -- `fs::create_dir` requires the parent to be an existing directory
      if canon ∈ fs.dirs then
        let fs' : Fs := { fs with dirs := q :: fs.dirs }
        if root <+: q then (fs', Except.ok q) else (fs', Except.error Error.pathTraversal)
      else (fs, Except.error (Error.ioError IoError.notFound))

/-- The full loop over the parent components.  Directories created before a
failure are kept (the resolver does not roll back). -/
def walkParents (root : List String) :
    List Component → Fs → List String → Fs × Except Error (List String)
  | [], fs, canon => (fs, Except.ok canon)
  | c :: rest, fs, canon =>
    match walkStep fs root canon c with
    | (fs', Except.ok canon') => walkParents root rest fs' canon'
    | (fs', Except.error e) => (fs', Except.error e)

/-- Purely lexical resolution of components against a canonical base: the
canonical path the walk ends at when it does not fail. -/
def resolveStep (canon : List String) : Component → List String
  | Component.curDir => canon
  | Component.parentDir => canon.dropLast
  | Component.normal n => canon ++ [n]

/-- Lexical resolution of a component list against a canonical base. -/
def resolveComps : List String → List Component → List String
  | canon, [] => canon
  | canon, c :: rest => resolveComps (resolveStep canon c) rest

/-! ## Entry construction (`CacheLazyFile::new`) and the cache operations -/

/-- `CacheLazyFile::new`: fails eagerly with `FileAlreadyExists` when the
path already exists on disk. -/
def CacheLazyFile.new (fs : Fs) (path : List String) (cb : Callback)
    (riv : Nat) (cacheRoot : List String) (cacheRiv : Nat) :
    Except Error CacheLazyFile :=
  if pathExists fs path then Except.error (Error.fileAlreadyExists path)
  else
    Except.ok
      { path := path, callback := cb, refresh_interval := riv,
        cache_root := cacheRoot, cache_refresh_interval := cacheRiv,
        locked := false }

/-- `InnerDirCache::get_lazy`: trailing-separator check, final-component
validation, sandboxed parent walk, then eager `CacheLazyFile::new`. -/
def get_lazy (fs : Fs) (root : List String) (riv : Nat) (input : String)
    (cb : Callback) : Fs × Except Error CacheLazyFile :=
  if endsWithSlash input then (fs, Except.error (Error.invalidPath input))
  else
    let ps := parseComponents input
    match ps.getLast? with
    | none => (fs, Except.error (Error.invalidPath input))
    | some (Component.normal n) =>
      if isBlank n.data then (fs, Except.error (Error.invalidPath input))
      else
        match walkParents root ps.dropLast fs root with
        | (fs', Except.ok canon) =>
          (fs', CacheLazyFile.new fs' (canon ++ [n]) cb riv root riv)
        | (fs', Except.error e) => (fs', Except.error e)
    | some _ => (fs, Except.error (Error.invalidPath input))

/-! ## `CacheLazyFile` operations (`src/file.rs`)

Directory metadata and read-handles on directories are outside the model:
the claims only exercise entries whose backing path is a regular file. -/

/-- `is_valid`: read metadata, take the modification time, compare the
elapsed time with the refresh interval.  `modified.elapsed()` fails with a
`SystemTime` error when the modification time is in the future. -/
def CacheLazyFile.is_valid (fs : Fs) (now : Nat) (e : CacheLazyFile) :
    Except Error Bool :=
  match lookupFile fs.files e.path with
  | none => Except.error (Error.ioError IoError.notFound)
  | some fe =>
    if fe.mtime ≤ now then Except.ok (decide (now - fe.mtime < e.refresh_interval))
    else Except.error Error.systemTime

/-- `is_invalid`: `self.is_valid().map(|valid| !valid)`. -/
def CacheLazyFile.is_invalid (fs : Fs) (now : Nat) (e : CacheLazyFile) :
    Except Error Bool :=
  (e.is_valid fs now).map (fun valid => !valid)

/-- `valid_until`: the modification time plus the refresh interval. -/
def CacheLazyFile.valid_until (fs : Fs) (e : CacheLazyFile) : Except Error Nat :=
  match lookupFile fs.files e.path with
  | none => Except.error (Error.ioError IoError.notFound)
  | some fe => Except.ok (fe.mtime + e.refresh_interval)

/-- `is_locked`: reads the local flag. -/
def CacheLazyFile.is_locked (e : CacheLazyFile) : Bool :=
  e.locked

/-- `is_unlocked`: `!self.is_locked()`. -/
def CacheLazyFile.is_unlocked (e : CacheLazyFile) : Bool :=
  !e.is_locked

/-- `lock`: sets the flag when unlocked, else `FileAlreadyLocked`; the entry
is returned unchanged on failure. -/
def CacheLazyFile.lock (e : CacheLazyFile) : CacheLazyFile × Except Error Unit :=
  if e.is_unlocked then ({ e with locked := true }, Except.ok ())
  else (e, Except.error Error.fileAlreadyLocked)

/-- `unlock`: clears the flag when locked, else `FileAlreadyUnlocked`. -/
def CacheLazyFile.unlock (e : CacheLazyFile) : CacheLazyFile × Except Error Unit :=
  if e.is_locked then ({ e with locked := false }, Except.ok ())
  else (e, Except.error Error.fileAlreadyUnlocked)

/-- `with_refresh_interval`: pure record update. -/
def CacheLazyFile.with_refresh_interval (e : CacheLazyFile) (d : Nat) :
    CacheLazyFile :=
  { e with refresh_interval := d }

/-- `with_default_refresh_interval`: reset to the owning cache's interval. -/
def CacheLazyFile.with_default_refresh_interval (e : CacheLazyFile) :
    CacheLazyFile :=
  { e with refresh_interval := e.cache_refresh_interval }

/-- `create`: open in exclusive create-new mode (fails with an I/O error if
the path exists or the parent directory is missing), invoke the producer on
the writable handle, then reopen read-only.  A producer failure is wrapped
as `Callback` and the written file is left on disk.  The returned value is
the content visible through the reopened read-only handle. -/
def CacheLazyFile.create (fs : Fs) (now : Nat) (e : CacheLazyFile) :
    FsOut (List Nat) :=
  if pathExists fs e.path then
    { fs := fs, calls := 0, out := Except.error (Error.ioError IoError.alreadyExists) }
  else if e.path ≠ [] ∧ e.path.dropLast ∈ fs.dirs then
    let fs1 : Fs := { fs with files := ⟨e.path, now, e.callback.written⟩ :: fs.files }
    match e.callback.result with
    | none => { fs := fs1, calls := 1, out := Except.ok e.callback.written }
    | some msg => { fs := fs1, calls := 1, out := Except.error (Error.callback msg) }
  else
    { fs := fs, calls := 0, out := Except.error (Error.ioError IoError.notFound) }

/-- `force_refresh`: open the existing file for writing with truncation
(failing with an I/O error when it does not exist as a regular file), then
invoke the producer.  The validity and the lock flag are never consulted. -/
def CacheLazyFile.force_refresh (fs : Fs) (now : Nat) (e : CacheLazyFile) :
    FsOut Unit :=
  match lookupFile fs.files e.path with
  | none => { fs := fs, calls := 0, out := Except.error (Error.ioError IoError.notFound) }
  | some _ =>
    let fs1 : Fs :=
      { fs with
        files := fs.files.map (fun q => if q.path = e.path then ⟨e.path, now, e.callback.written⟩ else q) }
    match e.callback.result with
    | none => { fs := fs1, calls := 1, out := Except.ok () }
    | some msg => { fs := fs1, calls := 1, out := Except.error (Error.callback msg) }

/-- `refresh`: compute the current validity; if invalid delegate to
`force_refresh`, if valid do nothing. -/
def CacheLazyFile.refresh (fs : Fs) (now : Nat) (e : CacheLazyFile) :
    FsOut Unit :=
  match e.is_invalid fs now with
  | Except.error err => { fs := fs, calls := 0, out := Except.error err }
  | Except.ok true => e.force_refresh fs now
  | Except.ok false => { fs := fs, calls := 0, out := Except.ok () }

/-- `open` (named `openFile` because `open` is a Lean keyword): if the path
exists, `refresh` then open read-only; otherwise `create`. -/
def CacheLazyFile.openFile (fs : Fs) (now : Nat) (e : CacheLazyFile) :
    FsOut (List Nat) :=
  if pathExists fs e.path then
    let r := e.refresh fs now
    match r.out with
    | Except.error err => { fs := r.fs, calls := r.calls, out := Except.error err }
    | Except.ok () =>
      match lookupFile r.fs.files e.path with
      | some fe => { fs := r.fs, calls := r.calls, out := Except.ok fe.content }
      | none => { fs := r.fs, calls := r.calls, out := Except.error (Error.ioError IoError.notFound) }
  else e.create fs now

/-- The upward directory-pruning loop inside `remove`: starting from the
file's parent, while the current directory is not the cache root and
`read_dir` shows it empty, remove it and ascend.  `read_dir` on a missing
directory is an I/O error. -/
def prune (cacheRoot : List String) (fs : Fs) (p : List String) :
    Fs × Except Error Unit :=
  if p = cacheRoot then (fs, Except.ok ())
  else if p ∈ fs.dirs then
    if hasChild fs p then (fs, Except.ok ())
    else
      let fs1 : Fs := { fs with dirs := fs.dirs.filter (fun q => q ≠ p) }
      if h : p = [] then (fs1, Except.ok ())
      else prune cacheRoot fs1 p.dropLast
  else (fs, Except.error (Error.ioError IoError.notFound))
termination_by p.length
decreasing_by
  simp only [List.length_dropLast]
  exact Nat.sub_lt (List.length_pos.mpr h) Nat.one_pos

/-- `remove`: when the path exists, delete the file (an I/O error when it is
not a regular file), then prune the now-empty ancestors up to the cache
root; when it does not exist, do nothing and succeed. -/
def CacheLazyFile.remove (fs : Fs) (e : CacheLazyFile) :
    Fs × Except Error Unit :=
  if pathExists fs e.path then
    if (lookupFile fs.files e.path).isSome then
      let fs1 : Fs := { fs with files := fs.files.filter (fun q => q.path ≠ e.path) }
      if e.path = [] then (fs1, Except.ok ())
      else prune e.cache_root fs1 e.path.dropLast
    else (fs, Except.error (Error.ioError IoError.other))
  else (fs, Except.ok ())

/-- `init`: materialize into the Initialized phase, eagerly creating the
backing file when it is absent. -/
def CacheLazyFile.init (fs : Fs) (now : Nat) (e : CacheLazyFile) :
    FsOut CacheFile :=
  if pathExists fs e.path then { fs := fs, calls := 0, out := Except.ok ⟨e⟩ }
  else
    let r := e.create fs now
    match r.out with
    | Except.ok _ => { fs := r.fs, calls := r.calls, out := Except.ok ⟨e⟩ }
    | Except.error err => { fs := r.fs, calls := r.calls, out := Except.error err }

/-- `CacheFile::force_refresh`: delegates unchanged to the inner entry. -/
def CacheFile.force_refresh (fs : Fs) (now : Nat) (c : CacheFile) : FsOut Unit :=
  c.inner.force_refresh fs now

/-- `CacheFile::refresh`: delegates unchanged to the inner entry. -/
def CacheFile.refresh (fs : Fs) (now : Nat) (c : CacheFile) : FsOut Unit :=
  c.inner.refresh fs now

/-- `InnerDirCache::get`: `get_lazy` then eager `init`. -/
def get (fs : Fs) (now : Nat) (root : List String) (riv : Nat)
    (input : String) (cb : Callback) : FsOut CacheFile :=
  match get_lazy fs root riv input cb with
  | (fs', Except.ok e) => e.init fs' now
  | (fs', Except.error err) => { fs := fs', calls := 0, out := Except.error err }

/-! ## Helper lemmas -/

/-- Updating every entry at path `p` makes the first lookup at `p` return
the replacement, provided some entry at `p` existed. -/
theorem lookupFile_map_update (files : List FileEntry) (p : List String)
    (fe fe' : FileEntry) (h : lookupFile files p = some fe) (hp : fe'.path = p) :
    lookupFile (files.map (fun q => if q.path = p then fe' else q)) p = some fe' := by
  induction files with
  | nil => simp [lookupFile] at h
  | cons q rest ih =>
    by_cases hq : q.path = p
    · simp only [List.map_cons, if_pos hq, lookupFile, if_pos hp]
    · simp only [lookupFile, if_neg hq] at h
      simp only [List.map_cons, if_neg hq, lookupFile, if_neg hq]
      exact ih h

/-- A strict prefix is still a prefix after dropping the last element. -/
theorem prefix_dropLast_of_lt (a p : List String) (h : a <+: p)
    (hl : a.length < p.length) : a <+: p.dropLast := by
  have ha : a = p.take a.length := List.prefix_iff_eq_take.mp h
  have ht : (p.take (p.length - 1)).take a.length = p.take a.length := by
    rw [List.take_take]
    congr 1
    omega
  rw [List.dropLast_eq_take, ha, ← ht]
  exact List.take_prefix _ _

/-- Appending one component keeps any prefix of the base a prefix. -/
theorem prefix_append_singleton (a c : List String) (n : String)
    (h : a <+: c) : a <+: c ++ [n] :=
  h.trans (List.prefix_append c [n])

/-- `resolveComps` distributes over appending component lists. -/
theorem resolveComps_append (l1 l2 : List Component) :
    ∀ canon, resolveComps canon (l1 ++ l2)
      = resolveComps (resolveComps canon l1) l2 := by
  induction l1 with
  | nil => intro canon; rfl
  | cons c rest ih => intro canon; exact ih (resolveStep canon c)

/-- Creating a directory under an existing directory preserves
well-formedness of an all-directory filesystem. -/
theorem WF_addDir (fs : Fs) (canon : List String) (n : String)
    (hwf : WF fs) (hc : canon ∈ fs.dirs)
    (hlook : lookupFile fs.files (canon ++ [n]) = none) :
    WF { fs with dirs := (canon ++ [n]) :: fs.dirs } := by
  obtain ⟨hroot, hclosed, hfiles, hdisj⟩ := hwf
  refine ⟨List.mem_cons_of_mem _ hroot, ?_, ?_, ?_⟩
  · intro p hp
    rcases List.mem_cons.mp hp with hp | hp
    · subst hp
      rw [List.dropLast_concat]
      exact List.mem_cons_of_mem _ hc
    · exact List.mem_cons_of_mem _ (hclosed p hp)
  · intro q hq
    exact ⟨(hfiles q hq).1, List.mem_cons_of_mem _ (hfiles q hq).2⟩
  · intro p hp
    rcases List.mem_cons.mp hp with hp | hp
    · subst hp
      exact hlook
    · exact hdisj p hp

/-- A prefix extends along a shared head. -/
theorem prefix_extend_head {α : Type} (a : α) (l1 l2 : List α)
    (h : l1 <+: l2) : a :: l1 <+: a :: l2 := by
  obtain ⟨t, ht⟩ := h
  exact ⟨t, by rw [List.cons_append, ht]⟩

/-- Characterization of the sandboxed parent walk on a well-formed
filesystem, provided no partial lexical resolution of the remaining
components is an existing regular file (a blocking file would surface an
I/O error instead): the walk either stops with `PathTraversal`, or
succeeds and lands exactly on the lexical resolution of the components,
which is then an existing directory still prefixed by the root. -/
theorem walkParents_characterization (root : List String) (ps : List Component) :
    ∀ (fs : Fs) (canon : List String), WF fs →
      canon ∈ fs.dirs → root <+: canon →
      (∀ qs, qs <+: ps → lookupFile fs.files (resolveComps canon qs) = none) →
      (walkParents root ps fs canon).2 = Except.error Error.pathTraversal
        ∨ ∃ fs', walkParents root ps fs canon
              = (fs', Except.ok (resolveComps canon ps))
            ∧ WF fs' ∧ fs'.files = fs.files
            ∧ resolveComps canon ps ∈ fs'.dirs
            ∧ root <+: resolveComps canon ps := by
  induction ps with
  | nil =>
    intro fs canon hwf hc hr _
    exact Or.inr ⟨fs, rfl, hwf, rfl, hc, hr⟩
  | cons c rest ih =>
    intro fs canon hwf hc hr hnof
    cases c with
    | curDir =>
      have hstep : walkStep fs root canon Component.curDir
          = (fs, Except.ok canon) := by
        simp only [walkStep]
        rw [if_pos hc, if_pos hr]
      simp only [walkParents]
      rw [hstep]
      exact ih fs canon hwf hc hr
        (fun qs hqs => hnof (Component.curDir :: qs)
          (prefix_extend_head _ qs rest hqs))
    | parentDir =>
      have hq : canon.dropLast ∈ fs.dirs := hwf.2.1 canon hc
      by_cases hrq : root <+: canon.dropLast
      · have hstep : walkStep fs root canon Component.parentDir
            = (fs, Except.ok canon.dropLast) := by
          simp only [walkStep]
          rw [if_pos hc, if_pos hrq]
        simp only [walkParents]
        rw [hstep]
        exact ih fs canon.dropLast hwf hq hrq
          (fun qs hqs => hnof (Component.parentDir :: qs)
            (prefix_extend_head _ qs rest hqs))
      · have hstep : walkStep fs root canon Component.parentDir
            = (fs, Except.error Error.pathTraversal) := by
          simp only [walkStep]
          rw [if_pos hc, if_neg hrq]
        simp only [walkParents]
        rw [hstep]
        exact Or.inl rfl
    | normal n =>
      have hrq : root <+: canon ++ [n] := prefix_append_singleton root canon n hr
      have hlookq : lookupFile fs.files (canon ++ [n]) = none :=
        hnof [Component.normal n]
          (prefix_extend_head _ [] rest List.nil_prefix)
      have hnof' : ∀ qs, qs <+: rest →
          lookupFile fs.files (resolveComps (canon ++ [n]) qs) = none :=
        fun qs hqs => hnof (Component.normal n :: qs)
          (prefix_extend_head _ qs rest hqs)
      by_cases hq : pathExists fs (canon ++ [n])
      · have hqd : canon ++ [n] ∈ fs.dirs := by
          rcases hq with hq | hq
          · exact hq
          · rw [hlookq] at hq
            cases hq
        have hstep : walkStep fs root canon (Component.normal n)
            = (fs, Except.ok (canon ++ [n])) := by
          simp only [walkStep]
          rw [if_pos hq, if_pos hrq]
        simp only [walkParents]
        rw [hstep]
        exact ih fs (canon ++ [n]) hwf hqd hrq hnof'
      · have hstep : walkStep fs root canon (Component.normal n)
            = ({ fs with dirs := (canon ++ [n]) :: fs.dirs },
               Except.ok (canon ++ [n])) := by
          simp only [walkStep]
          rw [if_neg hq, if_pos hc, if_pos hrq]
        simp only [walkParents]
        rw [hstep]
        exact ih { fs with dirs := (canon ++ [n]) :: fs.dirs } (canon ++ [n])
          (WF_addDir fs canon n hwf hc hlookq) (List.mem_cons_self _ _)
          hrq hnof' 

/-- One walk step never touches files and only adds directories. -/
theorem walkStep_mono (fs : Fs) (root canon : List String) (c : Component) :
    (walkStep fs root canon c).1.files = fs.files
      ∧ fs.dirs ⊆ (walkStep fs root canon c).1.dirs := by
  cases c <;> simp only [walkStep] <;> split_ifs <;>
    exact ⟨rfl, fun x hx => by first | exact hx | exact List.mem_cons_of_mem _ hx⟩

/-- The whole walk never touches files and only adds directories. -/
theorem walkParents_mono (root : List String) (ps : List Component) :
    ∀ (fs : Fs) (canon : List String),
      (walkParents root ps fs canon).1.files = fs.files
        ∧ fs.dirs ⊆ (walkParents root ps fs canon).1.dirs := by
  induction ps with
  | nil => exact fun fs canon => ⟨rfl, fun x hx => hx⟩
  | cons c rest ih =>
    intro fs canon
    have hm := walkStep_mono fs root canon c
    cases hstep : walkStep fs root canon c with
    | mk fs1 r =>
      rw [hstep] at hm
      simp only [walkParents, hstep]
      cases r with
      | ok canon1 =>
        have hr := ih fs1 canon1
        exact ⟨hr.1.trans hm.1, fun x hx => hr.2 (hm.2 hx)⟩
      | error e => exact hm

/-- A successful walk replayed over any filesystem that contains all the
directories and files of its final state succeeds again with the same
canonical result and creates nothing. -/
theorem walkParents_stable (root : List String) (ps : List Component) :
    ∀ (fs : Fs) (canon : List String) (fsE : Fs) (cc : List String),
      walkParents root ps fs canon = (fsE, Except.ok cc) →
      ∀ g : Fs, fsE.dirs ⊆ g.dirs →
        (∀ p, (lookupFile fsE.files p).isSome = true →
          (lookupFile g.files p).isSome = true) →
        walkParents root ps g canon = (g, Except.ok cc) := by
  induction ps with
  | nil =>
    intro fs canon fsE cc h g _ _
    injection h with h1 h2
    injection h2 with h3
    subst h3
    rfl
  | cons c0 rest ih =>
    intro fs canon fsE cc h g hgd hgf
    cases hstep : walkStep fs root canon c0 with
    | mk fs1 r =>
      simp only [walkParents, hstep] at h
      cases r with
      | error e =>
        have h2 : (fs1, Except.error (α := List String) e)
            = (fsE, Except.ok cc) := h
        injection h2 with h3 h4
        cases h4
      | ok canon1 =>
        have h2 : walkParents root rest fs1 canon1 = (fsE, Except.ok cc) := h
        have hmono := walkParents_mono root rest fs1 canon1
        rw [h2] at hmono
        have hsub : fs1.dirs ⊆ g.dirs := fun x hx => hgd (hmono.2 hx)
        have hfile : ∀ p, (lookupFile fs1.files p).isSome = true →
            (lookupFile g.files p).isSome = true := by
          intro p hp
          apply hgf
          rw [hmono.1]
          exact hp
        have hstepg : walkStep g root canon c0 = (g, Except.ok canon1) := by
          cases c0 with
          | curDir =>
            simp only [walkStep] at hstep ⊢
            split_ifs at hstep with hq1 hq2
            · injection hstep with hA hB
              injection hB with hC
              subst hA
              rw [if_pos (hsub hq1), if_pos hq2, hC]
            · injection hstep with hA hB
              cases hB
            · injection hstep with hA hB
              cases hB
          | parentDir =>
            simp only [walkStep] at hstep ⊢
            split_ifs at hstep with hq1 hq2
            · injection hstep with hA hB
              injection hB with hC
              subst hA
              rw [if_pos (hsub hq1), if_pos hq2, hC]
            · injection hstep with hA hB
              cases hB
            · injection hstep with hA hB
              cases hB
          | normal m =>
            simp only [walkStep] at hstep ⊢
            split_ifs at hstep with hq1 hq2 hq3 hq4
            · -- existed in `fs`, prefix check passed
              injection hstep with hA hB
              injection hB with hC
              subst hA
              have hg1 : pathExists g (canon ++ [m]) := by
                rcases hq1 with hq1 | hq1
                · exact Or.inl (hsub hq1)
                · exact Or.inr (hfile _ hq1)
              rw [if_pos hg1, if_pos hq2, hC]
            · injection hstep with hA hB
              cases hB
            · -- created in `fs`, prefix check passed
              injection hstep with hA hB
              injection hB with hC
              have hg1 : pathExists g (canon ++ [m]) := by
                refine Or.inl (hsub ?_)
                rw [← hA]
                exact List.mem_cons_self _ _
              rw [if_pos hg1, if_pos hq4, hC]
            · injection hstep with hA hB
              cases hB
            · injection hstep with hA hB
              cases hB
        simp only [walkParents, hstepg]
        exact ih fs1 canon1 fsE cc h2 g hgd hgf

/-- Prepending a file entry preserves lookup success. -/
theorem lookupFile_cons_isSome (q : FileEntry) (files : List FileEntry)
    (p : List String) (h : (lookupFile files p).isSome = true) :
    (lookupFile (q :: files) p).isSome = true := by
  simp only [lookupFile]
  split_ifs with hq
  · rfl
  · exact h

/-- A successful lookup returns a member entry bearing the looked-up path. -/
theorem lookupFile_mem (files : List FileEntry) (p : List String)
    (fe : FileEntry) (h : lookupFile files p = some fe) :
    fe ∈ files ∧ fe.path = p := by
  induction files with
  | nil => cases h
  | cons q rest ih =>
    simp only [lookupFile] at h
    split_ifs at h with hq
    · injection h with h2
      exact ⟨by rw [h2]; exact List.mem_cons_self _ _, by rw [← h2]; exact hq⟩
    · obtain ⟨h1, h2⟩ := ih h
      exact ⟨List.mem_cons_of_mem _ h1, h2⟩

/-- Deleting all entries at `p` makes lookup at `p` fail. -/
theorem lookupFile_filter_self (files : List FileEntry) (p : List String) :
    lookupFile (files.filter (fun q => q.path ≠ p)) p = none := by
  induction files with
  | nil => rfl
  | cons q rest ih =>
    by_cases hq : q.path = p
    · simp only [List.filter_cons, hq]
      simpa using ih
    · simp only [List.filter_cons]
      rw [if_pos (by simpa using hq)]
      simp only [lookupFile, if_neg hq]
      exact ih

/-- Deleting all entries at `p` leaves lookup at other paths unchanged. -/
theorem lookupFile_filter_ne (files : List FileEntry) (p q : List String)
    (hq : q ≠ p) :
    lookupFile (files.filter (fun x => x.path ≠ p)) q = lookupFile files q := by
  induction files with
  | nil => rfl
  | cons x rest ih =>
    by_cases hx : x.path = p
    · simp only [List.filter_cons, hx]
      rw [if_neg (by simp)]
      rw [ih]
      simp only [lookupFile]
      rw [if_neg (by rw [hx]; exact fun he => hq he.symm)]
    · simp only [List.filter_cons]
      rw [if_pos (by simpa using hx)]
      simp only [lookupFile]
      by_cases hxq : x.path = q
      · rw [if_pos hxq, if_pos hxq]
      · rw [if_neg hxq, if_neg hxq]
        exact ih

/-- A failing lookup stays failing after filtering. -/
theorem lookupFile_filter_none (files : List FileEntry)
    (f : FileEntry → Bool) (p : List String)
    (h : lookupFile files p = none) :
    lookupFile (files.filter f) p = none := by
  induction files with
  | nil => rfl
  | cons q rest ih =>
    simp only [lookupFile] at h
    split_ifs at h with hq
    simp only [List.filter_cons]
    split_ifs with hf
    · simp only [lookupFile, if_neg hq]
      exact ih h
    · exact ih h

/-- `hasChild` only shrinks when directories shrink and files agree. -/
theorem hasChild_false_of_subset (g fs : Fs) (d : List String)
    (hd : g.dirs ⊆ fs.dirs) (hf : g.files = fs.files)
    (h : hasChild fs d = false) : hasChild g d = false := by
  simp only [hasChild, Bool.or_eq_false_iff, List.any_eq_false] at h ⊢
  refine ⟨fun q hq => h.1 q (hd hq), fun q hq => h.2 q (by rw [hf] at hq; exact hq)⟩

/-- Removing a file keeps the filesystem well-formed. -/
theorem WF_removeFile (fs : Fs) (p : List String) (hwf : WF fs) :
    WF { fs with files := fs.files.filter (fun q => q.path ≠ p) } := by
  obtain ⟨h1, h2, h3, h4⟩ := hwf
  refine ⟨h1, h2, ?_, ?_⟩
  · intro q hq
    exact h3 q (List.filter_subset' _ hq)
  · intro d hd
    exact lookupFile_filter_none fs.files _ d (h4 d hd)

/-- Removing an empty non-root directory keeps the filesystem
well-formed. -/
theorem WF_removeDir_empty (fs : Fs) (p : List String) (hwf : WF fs)
    (hempty : hasChild fs p = false) (hne : p ≠ []) :
    WF { fs with dirs := fs.dirs.filter (fun q => q ≠ p) } := by
  obtain ⟨h1, h2, h3, h4⟩ := hwf
  simp only [hasChild, Bool.or_eq_false_iff, List.any_eq_false] at hempty
  refine ⟨?_, ?_, ?_, ?_⟩
  · refine List.mem_filter.mpr ⟨h1, ?_⟩
    rw [decide_eq_true_eq]
    intro he
    exact hne he.symm
  · intro q hq
    obtain ⟨hqm, hqp⟩ := List.mem_filter.mp hq
    refine List.mem_filter.mpr ⟨h2 q hqm, ?_⟩
    simp only [decide_eq_true_eq]
    intro hdp
    by_cases hq0 : q = []
    · rw [hq0] at hdp
      exact hne (hdp.symm.trans rfl)
    · have := hempty.1 q hqm
      simp only [decide_eq_true_eq] at this
      exact this ⟨hq0, hdp⟩
  · intro q hq
    obtain ⟨hq1, hq2⟩ := h3 q hq
    refine ⟨hq1, List.mem_filter.mpr ⟨hq2, ?_⟩⟩
    simp only [decide_eq_true_eq]
    intro hdp
    have := hempty.2 q hq
    simp only [decide_eq_true_eq] at this
    exact this ⟨hq1, hdp⟩
  · intro d hd
    exact h4 d (List.filter_subset' _ hd)

/-- In a well-formed filesystem the directories are prefix-closed. -/
theorem WF_prefix_closed (fs : Fs) (hwf : WF fs) (p : List String) :
    p ∈ fs.dirs → ∀ a, a <+: p → a ∈ fs.dirs := by
  induction p using List.reverseRecOn with
  | nil =>
    intro hp a ha
    rw [List.prefix_nil.mp ha]
    exact hp
  | append_singleton q x ih =>
    intro hp a ha
    rcases List.prefix_concat_iff.mp ha with h | h
    · rw [h]
      exact hp
    · have hq : q ∈ fs.dirs := by
        have := hwf.2.1 (q ++ [x]) hp
        rwa [List.dropLast_concat] at this
      exact ih hq a h

/-- Behavior of the pruning loop started at an existing directory strictly
inside the cache root, on a well-formed filesystem: it succeeds, preserves
well-formedness, never touches files, only removes directories, never
removes the cache root, every directory it removes is an ancestor of the
start that ends up childless, and — positively — it does remove every
strict-under-root ancestor of the start whose entire directory subtree
lies on the chain toward the start and that has no file below it. -/
theorem prune_spec (cacheRoot : List String) :
    ∀ (n : Nat) (p : List String), p.length ≤ n → ∀ (fs : Fs), WF fs →
      p ∈ fs.dirs → cacheRoot <+: p → cacheRoot ∈ fs.dirs →
      (prune cacheRoot fs p).2 = Except.ok ()
        ∧ WF (prune cacheRoot fs p).1
        ∧ (prune cacheRoot fs p).1.files = fs.files
        ∧ (prune cacheRoot fs p).1.dirs ⊆ fs.dirs
        ∧ cacheRoot ∈ (prune cacheRoot fs p).1.dirs
        ∧ (∀ d, d ∈ fs.dirs → d ∉ (prune cacheRoot fs p).1.dirs →
            d ≠ cacheRoot ∧ d <+: p
              ∧ hasChild (prune cacheRoot fs p).1 d = false)
        ∧ (∀ d, d ∈ fs.dirs → cacheRoot <+: d → d ≠ cacheRoot → d <+: p →
            (∀ q ∈ fs.dirs, d <+: q → q = d ∨ q <+: p) →
            (∀ s ∈ fs.files, ¬ d <+: s.path) →
            d ∉ (prune cacheRoot fs p).1.dirs) := by
  intro n
  induction n with
  | zero =>
    intro p hp fs hwf hmem hpre hroot
    have hp0 : p = [] := List.eq_nil_of_length_eq_zero (Nat.le_zero.mp hp)
    have hcr : p = cacheRoot := by
      rw [hp0]
      exact (List.prefix_nil.mp (hp0 ▸ hpre)).symm
    have hstop : prune cacheRoot fs p = (fs, Except.ok ()) := by
      rw [prune.eq_def]
      rw [if_pos hcr]
    rw [hstop]
    refine ⟨rfl, hwf, rfl, fun x hx => hx, hroot,
      fun d hd hnd => absurd hd hnd, ?_⟩
    intro d hd hrd hdnr hdp hsub hnf2
    rw [hcr] at hdp
    exact absurd
      (hdp.eq_of_length (Nat.le_antisymm hdp.length_le hrd.length_le)) hdnr
  | succ n ih =>
    intro p hp fs hwf hmem hpre hroot
    by_cases hpr : p = cacheRoot
    · have hstop : prune cacheRoot fs p = (fs, Except.ok ()) := by
        rw [prune.eq_def]
        rw [if_pos hpr]
      rw [hstop]
      refine ⟨rfl, hwf, rfl, fun x hx => hx, hroot,
        fun d hd hnd => absurd hd hnd, ?_⟩
      intro d hd hrd hdnr hdp hsub hnf2
      rw [hpr] at hdp
      exact absurd
        (hdp.eq_of_length (Nat.le_antisymm hdp.length_le hrd.length_le)) hdnr
    · by_cases hch : hasChild fs p = true
      · have hstop : prune cacheRoot fs p = (fs, Except.ok ()) := by
          rw [prune.eq_def]
          rw [if_neg hpr, if_pos hmem, if_pos hch]
        rw [hstop]
        refine ⟨rfl, hwf, rfl, fun x hx => hx, hroot,
          fun d hd hnd => absurd hd hnd, ?_⟩
        intro d hd hrd hdnr hdp hsub hnf2
        exfalso
        simp only [hasChild, Bool.or_eq_true, List.any_eq_true,
          decide_eq_true_eq] at hch
        rcases hch with ⟨q, hqm, hq1, hq2⟩ | ⟨s, hsm, hs1, hs2⟩
        · have hdq : d <+: q := hdp.trans (hq2 ▸ List.dropLast_prefix q)
          rcases hsub q hqm hdq with hqd | hqp
          · subst hqd
            rw [← hq2] at hdp
            have hle := hdp.length_le
            rw [List.length_dropLast] at hle
            have hpos := List.length_pos.mpr hq1
            omega
          · have hle := hqp.length_le
            have hql : p.length = q.length - 1 := by
              rw [← hq2, List.length_dropLast]
            have hpos := List.length_pos.mpr hq1
            omega
        · have hds : d <+: s.path :=
            hdp.trans (hs2 ▸ List.dropLast_prefix s.path)
          exact hnf2 s hsm hds
      · have hchf : hasChild fs p = false := Bool.not_eq_true _ ▸ eq_false_of_ne_true hch
        have hne : p ≠ [] := by
          intro h0
          apply hpr
          rw [h0]
          exact (List.prefix_nil.mp (h0 ▸ hpre)).symm
        have hstep : prune cacheRoot fs p
            = prune cacheRoot { fs with dirs := fs.dirs.filter (fun q => q ≠ p) }
                p.dropLast := by
          rw [prune.eq_def]
          rw [if_neg hpr, if_pos hmem, if_neg hch, dif_neg hne]
        have hlen : p.dropLast.length ≤ n := by
          rw [List.length_dropLast]
          omega
        have hwf1 : WF { fs with dirs := fs.dirs.filter (fun q => q ≠ p) } :=
          WF_removeDir_empty fs p hwf hchf hne
        have hlt : cacheRoot.length < p.length := by
          rcases Nat.lt_or_ge cacheRoot.length p.length with h | h
          · exact h
          · exact absurd (hpre.eq_of_length (Nat.le_antisymm hpre.length_le h)).symm hpr
        have hpre1 : cacheRoot <+: p.dropLast :=
          prefix_dropLast_of_lt _ _ hpre hlt
        have hmem1 : p.dropLast
            ∈ ({ fs with dirs := fs.dirs.filter (fun q => q ≠ p) } : Fs).dirs := by
          refine List.mem_filter.mpr ⟨hwf.2.1 p hmem, ?_⟩
          rw [decide_eq_true_eq]
          intro he
          have hl := List.length_dropLast p
          rw [he] at hl
          have hpos := List.length_pos.mpr hne
          omega
        have hroot1 : cacheRoot
            ∈ ({ fs with dirs := fs.dirs.filter (fun q => q ≠ p) } : Fs).dirs := by
          refine List.mem_filter.mpr ⟨hroot, ?_⟩
          rw [decide_eq_true_eq]
          exact fun he => hpr he.symm
        obtain ⟨c1, c2, c3, c4, c5, c6, c7⟩ :=
          ih p.dropLast hlen _ hwf1 hmem1 hpre1 hroot1
        rw [hstep]
        refine ⟨c1, c2, c3, fun x hx => List.filter_subset' _ (c4 hx), c5,
          ?_, ?_⟩
        · intro d hd hnd
          by_cases hdp : d = p
          · subst hdp
            refine ⟨hpr, List.prefix_refl d, ?_⟩
            refine hasChild_false_of_subset _ fs d
              (fun x hx => List.filter_subset' _ (c4 hx)) c3 hchf
          · have hd1 : d ∈ ({ fs with
                dirs := fs.dirs.filter (fun q => q ≠ p) } : Fs).dirs :=
              List.mem_filter.mpr ⟨hd, by rw [decide_eq_true_eq]; exact hdp⟩
            obtain ⟨k1, k2, k3⟩ := c6 d hd1 hnd
            exact ⟨k1, k2.trans (List.dropLast_prefix p), k3⟩
        · intro d hd hrd hdnr hdp hsub hnf2
          by_cases hdP : d = p
          · subst hdP
            intro hmem2
            obtain ⟨_, hne2⟩ := List.mem_filter.mp (c4 hmem2)
            rw [decide_eq_true_eq] at hne2
            exact hne2 rfl
          · have hlt2 : d.length < p.length := by
              rcases Nat.lt_or_ge d.length p.length with h | h
              · exact h
              · exact absurd
                  (hdp.eq_of_length (Nat.le_antisymm hdp.length_le h)) hdP
            refine c7 d
              (List.mem_filter.mpr ⟨hd, by rw [decide_eq_true_eq]; exact hdP⟩)
              hrd hdnr (prefix_dropLast_of_lt d p hdp hlt2) ?_ ?_
            · intro q hq1 hdq
              obtain ⟨hqm, hqne⟩ := List.mem_filter.mp hq1
              rw [decide_eq_true_eq] at hqne
              rcases hsub q hqm hdq with h | h
              · exact Or.inl h
              · refine Or.inr (prefix_dropLast_of_lt q p h ?_)
                rcases Nat.lt_or_ge q.length p.length with hh | hh
                · exact hh
                · exact absurd
                    (h.eq_of_length (Nat.le_antisymm h.length_le hh)) hqne
            · intro s hs1
              exact hnf2 s hs1

/-- A list whose `getLast?` is known decomposes as `dropLast ++ [last]`. -/
theorem dropLast_append_of_getLast {α : Type} (l : List α) (x : α)
    (h : l.getLast? = some x) : l.dropLast ++ [x] = l := by
  have hne : l ≠ [] := by
    rintro rfl
    simp at h
  have h2 := List.dropLast_append_getLast hne
  rw [List.getLast?_eq_getLast l hne, Option.some_inj] at h
  rw [← h]
  exact h2

/-- A character list without the separator splits into itself alone. -/
theorem splitOnSlash_eq_single (cs : List Char) (h : ∀ c ∈ cs, c ≠ '/') :
    splitOnSlash cs = [cs] := by
  induction cs with
  | nil => rfl
  | cons c rest ih =>
    have hc : c ≠ '/' := h c (List.mem_cons_self c rest)
    have hr := ih (fun x hx => h x (List.mem_cons_of_mem c hx))
    simp [splitOnSlash, hc, hr]

/-- A non-empty whitespace-only string parses as one blank normal name. -/
theorem parseComponents_blank (s : String) (hne : s.data ≠ [])
    (hall : s.data.all Char.isWhitespace = true) :
    parseComponents s = [Component.normal (String.mk s.data)] := by
  have hnoslash : ∀ c ∈ s.data, c ≠ '/' := by
    intro c hc
    have : c.isWhitespace = true := by
      rw [List.all_eq_true] at hall
      exact hall c hc
    intro he
    rw [he] at this
    exact absurd this (by decide)
  have hdot : s.data ≠ ['.'] := by
    intro he
    rw [he] at hall
    exact absurd hall (by decide)
  have hdotdot : s.data ≠ ['.', '.'] := by
    intro he
    rw [he] at hall
    exact absurd hall (by decide)
  unfold parseComponents
  rw [splitOnSlash_eq_single s.data hnoslash]
  simp [hne, hdot, toComponent, hdotdot]

/-! ## Claim theorems -/

/-- C3.  For every entry whose backing file exists with a modification time
not in the future, `is_valid` returns `true` exactly when the elapsed time
since the file's last modification is strictly below the entry's refresh
interval, `is_invalid` is its boolean negation, and with a zero refresh
interval the entry is always invalid. -/
theorem is_valid_ttl_spec (fs : Fs) (now : Nat) (e : CacheLazyFile)
    (fe : FileEntry) (hf : lookupFile fs.files e.path = some fe)
    (hm : fe.mtime ≤ now) :
    e.is_valid fs now = Except.ok (decide (now - fe.mtime < e.refresh_interval))
      ∧ e.is_invalid fs now
          = Except.ok (!decide (now - fe.mtime < e.refresh_interval))
      ∧ (e.refresh_interval = 0 → e.is_invalid fs now = Except.ok true) := by
  have hv : e.is_valid fs now
      = Except.ok (decide (now - fe.mtime < e.refresh_interval)) := by
    unfold CacheLazyFile.is_valid
    rw [hf]
    simp [hm]
  refine ⟨hv, ?_, ?_⟩
  · unfold CacheLazyFile.is_invalid
    rw [hv]
    rfl
  · intro h0
    unfold CacheLazyFile.is_invalid
    rw [hv]
    simp [h0, Except.map]

/-- Witness for C3 at a concrete filesystem, entry and clock. -/
theorem is_valid_ttl_spec_witness :
    CacheLazyFile.is_valid ⟨[[], ["r"]], [⟨["r", "f"], 10, [1]⟩]⟩ 12
        ⟨["r", "f"], ⟨[9], none⟩, 5, ["r"], 5, false⟩
      = Except.ok (decide (12 - 10 < 5)) :=
  (is_valid_ttl_spec ⟨[[], ["r"]], [⟨["r", "f"], 10, [1]⟩]⟩ 12
    ⟨["r", "f"], ⟨[9], none⟩, 5, ["r"], 5, false⟩ ⟨["r", "f"], 10, [1]⟩
    (by decide) (by decide)).1

/-- C2.  On an entry whose backing file exists, `force_refresh` invokes the
producer exactly once and truncates-and-rewrites the file, with no validity
hypothesis; neither `force_refresh` nor `refresh` reads the `locked` flag,
so a locked entry behaves identically, and the Initialized wrapper
delegates unchanged. -/
theorem force_refresh_unconditional (fs : Fs) (now : Nat) (e : CacheLazyFile)
    (fe : FileEntry) (b : Bool) (hf : lookupFile fs.files e.path = some fe) :
    (e.force_refresh fs now).calls = 1
      ∧ lookupFile (e.force_refresh fs now).fs.files e.path
          = some ⟨e.path, now, e.callback.written⟩
      ∧ CacheLazyFile.force_refresh fs now { e with locked := b }
          = e.force_refresh fs now
      ∧ CacheLazyFile.refresh fs now { e with locked := b } = e.refresh fs now
      ∧ CacheFile.force_refresh fs now ⟨e⟩ = e.force_refresh fs now := by
  refine ⟨?_, ?_, rfl, rfl, rfl⟩
  · unfold CacheLazyFile.force_refresh
    rw [hf]
    cases e.callback.result <;> rfl
  · unfold CacheLazyFile.force_refresh
    rw [hf]
    cases e.callback.result <;>
      exact lookupFile_map_update fs.files e.path fe _ hf rfl

/-- Witness for C2 on a concrete locked entry whose file exists. -/
theorem force_refresh_unconditional_witness :
    (CacheLazyFile.force_refresh ⟨[[], ["r"]], [⟨["r", "f"], 10, [1]⟩]⟩ 12
        ⟨["r", "f"], ⟨[9], none⟩, 5, ["r"], 5, true⟩).calls = 1 :=
  (force_refresh_unconditional ⟨[[], ["r"]], [⟨["r", "f"], 10, [1]⟩]⟩ 12
    ⟨["r", "f"], ⟨[9], none⟩, 5, ["r"], 5, true⟩ ⟨["r", "f"], 10, [1]⟩ false
    (by decide)).1

/-- C4.  `refresh` is a no-op (no producer call, filesystem untouched) when
the entry is valid and delegates to `force_refresh` when it is invalid; in
particular an `open` within the TTL window does not invoke the producer and
returns the cached content. -/
theorem refresh_validity_spec (fs : Fs) (now : Nat) (e : CacheLazyFile)
    (fe : FileEntry) (hf : lookupFile fs.files e.path = some fe)
    (hm : fe.mtime ≤ now) :
    (now - fe.mtime < e.refresh_interval →
        e.refresh fs now = ⟨fs, 0, Except.ok ()⟩
          ∧ e.openFile fs now = ⟨fs, 0, Except.ok fe.content⟩)
      ∧ (¬ now - fe.mtime < e.refresh_interval →
          e.refresh fs now = e.force_refresh fs now) := by
  have hv := (is_valid_ttl_spec fs now e fe hf hm).2.1
  constructor
  · intro hvalid
    have hr : e.refresh fs now = ⟨fs, 0, Except.ok ()⟩ := by
      unfold CacheLazyFile.refresh
      rw [hv]
      simp [hvalid]
    refine ⟨hr, ?_⟩
    have hex : pathExists fs e.path := Or.inr (by rw [hf]; rfl)
    unfold CacheLazyFile.openFile
    rw [if_pos hex, hr]
    simp only [hf]
  · intro hinvalid
    unfold CacheLazyFile.refresh
    rw [hv]
    simp [hinvalid]

/-- Witness for C4: a second `open` two ticks after creation with TTL 5
touches nothing and does not call the producer. -/
theorem refresh_validity_spec_witness :
    CacheLazyFile.openFile ⟨[[], ["r"]], [⟨["r", "f"], 10, [1]⟩]⟩ 12
        ⟨["r", "f"], ⟨[9], none⟩, 5, ["r"], 5, false⟩
      = ⟨⟨[[], ["r"]], [⟨["r", "f"], 10, [1]⟩]⟩, 0, Except.ok [1]⟩ :=
  ((refresh_validity_spec ⟨[[], ["r"]], [⟨["r", "f"], 10, [1]⟩]⟩ 12
    ⟨["r", "f"], ⟨[9], none⟩, 5, ["r"], 5, false⟩ ⟨["r", "f"], 10, [1]⟩
    (by decide) (by decide)).1 (by decide)).2

/-- C5.  Constructing a Lazy entry over an existing path fails eagerly with
`FileAlreadyExists` at construction time; consequently, after a successful
`get`, a second `get` of the same relative path on the same root fails with
`FileAlreadyExists` (at entry construction, touching nothing and never
invoking the producer). -/
theorem lazy_entry_exists_spec :
    (∀ (fs : Fs) (p : List String) (cb : Callback) (riv : Nat)
        (root : List String) (criv : Nat), pathExists fs p →
        CacheLazyFile.new fs p cb riv root criv
          = Except.error (Error.fileAlreadyExists p))
      ∧ (∀ (fs : Fs) (now now2 : Nat) (root : List String) (riv : Nat)
          (input : String) (cb cb2 : Callback) (fs1 : Fs) (k : Nat)
          (cf : CacheFile),
          get fs now root riv input cb = ⟨fs1, k, Except.ok cf⟩ →
          get fs1 now2 root riv input cb2
            = ⟨fs1, 0, Except.error (Error.fileAlreadyExists cf.inner.path)⟩) := by
  constructor
  · intro fs p cb riv root criv h
    unfold CacheLazyFile.new
    rw [if_pos h]
  · intro fs now now2 root riv input cb cb2 fs1 k cf hget
    cases hglE : get_lazy fs root riv input cb with
    | mk fsA r =>
      simp only [get, hglE] at hget
      cases r with
      | error err =>
        have hget2 : FsOut.mk fsA 0 (Except.error err)
            = FsOut.mk fs1 k (Except.ok cf) := hget
        injection hget2 with hA hB hC
        cases hC
      | ok e =>
        have hget2 : e.init fsA now = ⟨fs1, k, Except.ok cf⟩ := hget
        simp only [get_lazy] at hglE
        split at hglE
        · injection hglE with hA hB
          cases hB
        · split at hglE
          · injection hglE with hA hB
            cases hB
          · rename_i hsne hmB n heqL
            split at hglE
            · injection hglE with hA hB
              cases hB
            · rename_i hnb
              split at hglE
              · rename_i fsW canon heqW
                injection hglE with hA hB
                subst hA
                unfold CacheLazyFile.new at hB
                split_ifs at hB with hex
                injection hB with hE
                rw [← hE] at hget2
                simp only [CacheLazyFile.init] at hget2
                rw [if_neg hex] at hget2
                simp only [CacheLazyFile.create] at hget2
                rw [if_neg hex] at hget2
                split_ifs at hget2 with hpar
                · cases hcb : cb.result with
                  | some msg =>
                    rw [hcb] at hget2
                    have hget3 : FsOut.mk
                        { fsW with files :=
                            ⟨canon ++ [n], now, cb.written⟩ :: fsW.files } 1
                        (Except.error (Error.callback msg))
                        = FsOut.mk fs1 k (Except.ok cf) := hget2
                    injection hget3 with hA2 hB2 hC2
                    cases hC2
                  | none =>
                    rw [hcb] at hget2
                    have hget3 : FsOut.mk
                        { fsW with files :=
                            ⟨canon ++ [n], now, cb.written⟩ :: fsW.files } 1
                        (Except.ok (CacheFile.mk
                          { path := canon ++ [n], callback := cb,
                            refresh_interval := riv, cache_root := root,
                            cache_refresh_interval := riv, locked := false }))
                        = FsOut.mk fs1 k (Except.ok cf) := hget2
                    injection hget3 with hA2 hB2 hC2
                    injection hC2 with hC3
                    -- replay the walk over the grown filesystem
                    have hwalk2 : walkParents root
                        (parseComponents input).dropLast fs1 root
                        = (fs1, Except.ok canon) := by
                      apply walkParents_stable root _ fs root fsW canon heqW
                      · rw [← hA2]
                        exact fun x hx => hx
                      · intro p hp
                        rw [← hA2]
                        exact lookupFile_cons_isSome _ _ _ hp
                    have hex2 : pathExists fs1 (canon ++ [n]) := by
                      refine Or.inr ?_
                      rw [← hA2]
                      simp [lookupFile]
                    have hgl2 : get_lazy fs1 root riv input cb2
                        = (fs1, Except.error
                            (Error.fileAlreadyExists (canon ++ [n]))) := by
                      simp only [get_lazy]
                      rw [if_neg hsne]
                      split
                      · rename_i heq
                        rw [heq] at heqL
                        cases heqL
                      · rename_i m heq
                        have hmn : m = n := by
                          rw [heqL] at heq
                          injection heq with h1
                          injection h1 with h2
                          exact h2.symm
                        subst hmn
                        rw [if_neg hnb, hwalk2]
                        have hnew : CacheLazyFile.new fs1 (canon ++ [m]) cb2
                            riv root riv
                            = Except.error
                                (Error.fileAlreadyExists (canon ++ [m])) := by
                          unfold CacheLazyFile.new
                          rw [if_pos hex2]
                        show (fs1, CacheLazyFile.new fs1 (canon ++ [m]) cb2
                            riv root riv)
                          = (fs1, Except.error
                              (Error.fileAlreadyExists (canon ++ [m])))
                        rw [hnew]
                      · rename_i x hnotn heq
                        rw [heqL] at heq
                        injection heq with h2
                        exact absurd h2.symm (hnotn n)
                    have hpath : cf.inner.path = canon ++ [n] := by
                      rw [← hC3]
                    simp only [get, hgl2, hpath]
                · have hget3 : FsOut.mk fsW 0
                      (Except.error (Error.ioError IoError.notFound))
                      = FsOut.mk fs1 k (Except.ok cf) := hget2
                  injection hget3 with hA2 hB2 hC2
                  cases hC2
              · rename_i fsW e2 heqW
                injection hglE with hA hB
                cases hB
          · injection hglE with hA hB
            cases hB

/-- Witness for C5: the failing second construction over an existing path,
and a concrete double `get` of `"d/x"`. -/
theorem lazy_entry_exists_spec_witness :
    CacheLazyFile.new ⟨[[], ["r"]], [⟨["r", "f"], 10, [1]⟩]⟩ ["r", "f"]
        ⟨[9], none⟩ 5 ["r"] 5
      = Except.error (Error.fileAlreadyExists ["r", "f"])
      ∧ get ⟨[["r", "d"], [], ["r"]],
            [⟨["r", "d", "x"], 7, [42]⟩]⟩ 9 ["r"] 5 "d/x" ⟨[9], none⟩
          = ⟨⟨[["r", "d"], [], ["r"]], [⟨["r", "d", "x"], 7, [42]⟩]⟩, 0,
             Except.error (Error.fileAlreadyExists ["r", "d", "x"])⟩ :=
  ⟨lazy_entry_exists_spec.1 ⟨[[], ["r"]], [⟨["r", "f"], 10, [1]⟩]⟩ ["r", "f"]
      ⟨[9], none⟩ 5 ["r"] 5 (by decide),
   lazy_entry_exists_spec.2 ⟨[[], ["r"]], []⟩ 7 9 ["r"] 5 "d/x" ⟨[42], none⟩
      ⟨[9], none⟩ ⟨[["r", "d"], [], ["r"]], [⟨["r", "d", "x"], 7, [42]⟩]⟩ 1
      ⟨⟨["r", "d", "x"], ⟨[42], none⟩, 5, ["r"], 5, false⟩⟩ rfl⟩

/-- C7.  `lock` fails with `FileAlreadyLocked` exactly when the flag is
already set and otherwise sets it; `unlock` fails with
`FileAlreadyUnlocked` exactly when it is already clear and otherwise clears
it; on failure the entry is returned unchanged; the interval-override
operations never touch the flag. -/
theorem lock_unlock_flag_spec (e : CacheLazyFile) (d : Nat) :
    (e.locked = false → e.lock = ({ e with locked := true }, Except.ok ()))
      ∧ (e.locked = true → e.lock = (e, Except.error Error.fileAlreadyLocked))
      ∧ (e.locked = true → e.unlock = ({ e with locked := false }, Except.ok ()))
      ∧ (e.locked = false →
          e.unlock = (e, Except.error Error.fileAlreadyUnlocked))
      ∧ (e.with_refresh_interval d).locked = e.locked
      ∧ e.with_default_refresh_interval.locked = e.locked := by
  refine ⟨?_, ?_, ?_, ?_, rfl, rfl⟩ <;>
    · intro h
      simp [CacheLazyFile.lock, CacheLazyFile.unlock, CacheLazyFile.is_unlocked,
        CacheLazyFile.is_locked, h]

/-- Witness for C7: locking an unlocked entry, then failing to lock again. -/
theorem lock_unlock_flag_spec_witness :
    CacheLazyFile.lock ⟨["r", "f"], ⟨[9], none⟩, 5, ["r"], 5, false⟩
        = (⟨["r", "f"], ⟨[9], none⟩, 5, ["r"], 5, true⟩, Except.ok ())
      ∧ CacheLazyFile.lock ⟨["r", "f"], ⟨[9], none⟩, 5, ["r"], 5, true⟩
          = (⟨["r", "f"], ⟨[9], none⟩, 5, ["r"], 5, true⟩,
             Except.error Error.fileAlreadyLocked) :=
  ⟨(lock_unlock_flag_spec ⟨["r", "f"], ⟨[9], none⟩, 5, ["r"], 5, false⟩ 0).1
      (by decide),
   (lock_unlock_flag_spec ⟨["r", "f"], ⟨[9], none⟩, 5, ["r"], 5, true⟩ 0).2.1
      (by decide)⟩

/-- C8.  `remove` on an entry whose backing file exists under the cache
root succeeds, deletes exactly that file, walks upward removing only
ancestor directories that end up childless — and does remove every strict
ancestor (other than the cache root) whose directory subtree lies entirely
on the chain toward the file and whose only file below is the removed one
— never removes the cache root, and leaves intact every directory on the
parent chain of any other surviving file (an ancestor holding a sibling
entry, together with all its own ancestors). -/
theorem remove_prunes_empty_ancestors (fs : Fs) (e : CacheLazyFile)
    (fe : FileEntry) (hwf : WF fs) (hroot : e.cache_root ∈ fs.dirs)
    (hfile : lookupFile fs.files e.path = some fe)
    (hpre : e.cache_root <+: e.path) :
    (CacheLazyFile.remove fs e).2 = Except.ok ()
      ∧ lookupFile (CacheLazyFile.remove fs e).1.files e.path = none
      ∧ (∀ q, q ≠ e.path →
          lookupFile (CacheLazyFile.remove fs e).1.files q
            = lookupFile fs.files q)
      ∧ e.cache_root ∈ (CacheLazyFile.remove fs e).1.dirs
      ∧ (CacheLazyFile.remove fs e).1.dirs ⊆ fs.dirs
      ∧ (∀ d, d ∈ fs.dirs → d ∉ (CacheLazyFile.remove fs e).1.dirs →
          d ≠ e.cache_root ∧ d <+: e.path
            ∧ hasChild (CacheLazyFile.remove fs e).1 d = false)
      ∧ (∀ s d, lookupFile fs.files s ≠ none → s ≠ e.path →
          d <+: s.dropLast → d ∈ (CacheLazyFile.remove fs e).1.dirs)
      ∧ (∀ d, d ∈ fs.dirs → e.cache_root <+: d → d ≠ e.cache_root →
          d <+: e.path.dropLast →
          (∀ q ∈ fs.dirs, d <+: q → q = d ∨ q <+: e.path.dropLast) →
          (∀ s ∈ fs.files, d <+: s.path → s.path = e.path) →
          d ∉ (CacheLazyFile.remove fs e).1.dirs) := by
  obtain ⟨hfe_mem, hfe_path⟩ := lookupFile_mem fs.files e.path fe hfile
  obtain ⟨hfe_ne, hfe_dir⟩ := hwf.2.2.1 fe hfe_mem
  have hne : e.path ≠ [] := hfe_path ▸ hfe_ne
  have hpdir : e.path.dropLast ∈ fs.dirs := hfe_path ▸ hfe_dir
  have hnotdir : e.path ∉ fs.dirs := by
    intro hmem
    have hcon := hwf.2.2.2 e.path hmem
    rw [hfile] at hcon
    cases hcon
  have hner : e.path ≠ e.cache_root := fun he => hnotdir (he ▸ hroot)
  have hex : pathExists fs e.path := Or.inr (by rw [hfile]; rfl)
  have hrm : CacheLazyFile.remove fs e
      = prune e.cache_root
          { fs with files := fs.files.filter (fun q => q.path ≠ e.path) }
          e.path.dropLast := by
    unfold CacheLazyFile.remove
    rw [if_pos hex, if_pos (by rw [hfile]; rfl), if_neg hne]
  have hwf1 : WF { fs with
      files := fs.files.filter (fun q => q.path ≠ e.path) } :=
    WF_removeFile fs e.path hwf
  have hlt : e.cache_root.length < e.path.length := by
    rcases Nat.lt_or_ge e.cache_root.length e.path.length with h | h
    · exact h
    · exact absurd (hpre.eq_of_length
        (Nat.le_antisymm hpre.length_le h)).symm hner
  have hpre1 : e.cache_root <+: e.path.dropLast :=
    prefix_dropLast_of_lt _ _ hpre hlt
  obtain ⟨c1, c2, c3, c4, c5, c6, c7⟩ :=
    prune_spec e.cache_root e.path.dropLast.length e.path.dropLast
      (Nat.le_refl _)
      { fs with files := fs.files.filter (fun q => q.path ≠ e.path) }
      hwf1 hpdir hpre1 hroot
  rw [hrm]
  refine ⟨c1, ?_, ?_, c5, c4, ?_, ?_, ?_⟩
  · rw [c3]
    exact lookupFile_filter_self fs.files e.path
  · intro q hq
    rw [c3]
    exact lookupFile_filter_ne fs.files e.path q hq
  · intro d hd hnd
    obtain ⟨k1, k2, k3⟩ := c6 d hd hnd
    exact ⟨k1, k2.trans (List.dropLast_prefix _), k3⟩
  · intro s d hs hsne hd
    have hsl : lookupFile (prune e.cache_root
        { fs with files := fs.files.filter (fun q => q.path ≠ e.path) }
        e.path.dropLast).1.files s ≠ none := by
      rw [c3, lookupFile_filter_ne fs.files e.path s hsne]
      exact hs
    cases hsome : lookupFile (prune e.cache_root
        { fs with files := fs.files.filter (fun q => q.path ≠ e.path) }
        e.path.dropLast).1.files s with
    | none => exact absurd hsome hsl
    | some fe2 =>
      obtain ⟨hm2, hp2⟩ := lookupFile_mem _ _ _ hsome
      have hdd := (c2.2.2.1 fe2 hm2).2
      rw [hp2] at hdd
      exact WF_prefix_closed _ c2 s.dropLast hdd d hd
  · intro d hd hrd hdnr hdp hsub hnf2
    refine c7 d hd hrd hdnr hdp hsub ?_
    intro s hs1 hds
    obtain ⟨hsm, hsne⟩ := List.mem_filter.mp hs1
    rw [decide_eq_true_eq] at hsne
    exact hsne (hnf2 s hsm hds)

/-- Witness for C8: a file nested three directories deep with a sibling
file one level up in ancestor `["r", "a"]`; the two empty ancestors
`["r", "a", "b"]` and `["r", "a", "b", "c"]` are removed, while the
populated ancestor, its parent chain and the root stay. -/
theorem remove_prunes_empty_ancestors_witness :
    (CacheLazyFile.remove
        ⟨[[], ["r"], ["r", "a"], ["r", "a", "b"], ["r", "a", "b", "c"]],
         [⟨["r", "a", "b", "c", "f"], 0, []⟩, ⟨["r", "a", "s"], 0, []⟩]⟩
        ⟨["r", "a", "b", "c", "f"], ⟨[9], none⟩, 5, ["r"], 5, false⟩).2
      = Except.ok ()
    ∧ lookupFile (CacheLazyFile.remove
        ⟨[[], ["r"], ["r", "a"], ["r", "a", "b"], ["r", "a", "b", "c"]],
         [⟨["r", "a", "b", "c", "f"], 0, []⟩, ⟨["r", "a", "s"], 0, []⟩]⟩
        ⟨["r", "a", "b", "c", "f"], ⟨[9], none⟩, 5, ["r"], 5, false⟩).1.files
        ["r", "a", "b", "c", "f"] = none
    ∧ ["r"] ∈ (CacheLazyFile.remove
        ⟨[[], ["r"], ["r", "a"], ["r", "a", "b"], ["r", "a", "b", "c"]],
         [⟨["r", "a", "b", "c", "f"], 0, []⟩, ⟨["r", "a", "s"], 0, []⟩]⟩
        ⟨["r", "a", "b", "c", "f"], ⟨[9], none⟩, 5, ["r"], 5, false⟩).1.dirs
    ∧ ["r", "a"] ∈ (CacheLazyFile.remove
        ⟨[[], ["r"], ["r", "a"], ["r", "a", "b"], ["r", "a", "b", "c"]],
         [⟨["r", "a", "b", "c", "f"], 0, []⟩, ⟨["r", "a", "s"], 0, []⟩]⟩
        ⟨["r", "a", "b", "c", "f"], ⟨[9], none⟩, 5, ["r"], 5, false⟩).1.dirs
    ∧ ["r", "a", "b"] ∉ (CacheLazyFile.remove
        ⟨[[], ["r"], ["r", "a"], ["r", "a", "b"], ["r", "a", "b", "c"]],
         [⟨["r", "a", "b", "c", "f"], 0, []⟩, ⟨["r", "a", "s"], 0, []⟩]⟩
        ⟨["r", "a", "b", "c", "f"], ⟨[9], none⟩, 5, ["r"], 5, false⟩).1.dirs
    ∧ ["r", "a", "b", "c"] ∉ (CacheLazyFile.remove
        ⟨[[], ["r"], ["r", "a"], ["r", "a", "b"], ["r", "a", "b", "c"]],
         [⟨["r", "a", "b", "c", "f"], 0, []⟩, ⟨["r", "a", "s"], 0, []⟩]⟩
        ⟨["r", "a", "b", "c", "f"], ⟨[9], none⟩, 5, ["r"], 5, false⟩).1.dirs := by
  have h := remove_prunes_empty_ancestors
    ⟨[[], ["r"], ["r", "a"], ["r", "a", "b"], ["r", "a", "b", "c"]],
     [⟨["r", "a", "b", "c", "f"], 0, []⟩, ⟨["r", "a", "s"], 0, []⟩]⟩
    ⟨["r", "a", "b", "c", "f"], ⟨[9], none⟩, 5, ["r"], 5, false⟩
    ⟨["r", "a", "b", "c", "f"], 0, []⟩ (by decide) (by decide) (by decide)
    (by decide)
  exact ⟨h.1, h.2.1, h.2.2.2.1,
    h.2.2.2.2.2.2.1 ["r", "a", "s"] ["r", "a"] (by decide) (by decide)
      (by decide),
    h.2.2.2.2.2.2.2 ["r", "a", "b"] (by decide) (by decide) (by decide)
      (by decide) (by decide) (by decide),
    h.2.2.2.2.2.2.2 ["r", "a", "b", "c"] (by decide) (by decide) (by decide)
      (by decide) (by decide) (by decide)⟩

/-- C9.  When the producer fails during `create`, the error is surfaced as
a `Callback` error (a constructor distinct from the `IO` one), exactly one
producer invocation happened, and the written file is left on disk. -/
theorem create_callback_error_no_rollback (fs : Fs) (now : Nat)
    (e : CacheLazyFile) (msg : String) (hex : ¬ pathExists fs e.path)
    (hpar : e.path ≠ [] ∧ e.path.dropLast ∈ fs.dirs)
    (hcb : e.callback.result = some msg) :
    (e.create fs now).out = Except.error (Error.callback msg)
      ∧ lookupFile (e.create fs now).fs.files e.path
          = some ⟨e.path, now, e.callback.written⟩
      ∧ (e.create fs now).calls = 1
      ∧ (∀ i, Error.callback msg ≠ Error.ioError i) := by
  have hc : e.create fs now
      = ⟨{ fs with files := ⟨e.path, now, e.callback.written⟩ :: fs.files }, 1,
         Except.error (Error.callback msg)⟩ := by
    unfold CacheLazyFile.create
    rw [if_neg hex, if_pos hpar, hcb]
  refine ⟨by rw [hc], ?_, by rw [hc], fun i h => by cases h⟩
  rw [hc]
  simp [lookupFile]

/-- Witness for C9 at a concrete entry whose producer writes two bytes and
then fails. -/
theorem create_callback_error_no_rollback_witness :
    (CacheLazyFile.create ⟨[[], ["r"]], []⟩ 12
        ⟨["r", "g"], ⟨[7, 8], some "boom"⟩, 5, ["r"], 5, false⟩).out
      = Except.error (Error.callback "boom") :=
  (create_callback_error_no_rollback ⟨[[], ["r"]], []⟩ 12
    ⟨["r", "g"], ⟨[7, 8], some "boom"⟩, 5, ["r"], 5, false⟩ "boom"
    (by decide) (by decide) rfl).1

/-- C1 (counterexamples to the unrestricted claim).  First, the relative
path `".."` canonically resolves outside the cache root `["r"]`, yet
`get_lazy` rejects it with `InvalidPath` (its sole component is consumed as
the final component, which is not a plain name), not with `PathTraversal`.
Second, the path `"f/../../x"` also resolves outside the root and passes
the `InvalidPath` validation, yet when `root/f` is a pre-existing regular
file the walk fails with an I/O error at `root/f/..` (the file cannot be
traversed as a directory), not with `PathTraversal` — forcing the amended
claim's no-blocking-file proviso. -/
theorem path_traversal_claim_counterexample :
    (¬ ["r"] <+: resolveComps ["r"] (parseComponents "..")
      ∧ (get_lazy ⟨[[], ["r"]], []⟩ ["r"] 5 ".." ⟨[9], none⟩).2
          = Except.error (Error.invalidPath "..")
      ∧ (get ⟨[[], ["r"]], []⟩ 0 ["r"] 5 ".." ⟨[9], none⟩).out
          = Except.error (Error.invalidPath "..")
      ∧ Error.invalidPath ".." ≠ Error.pathTraversal)
      ∧ (¬ ["r"] <+: resolveComps ["r"] (parseComponents "f/../../x")
        ∧ endsWithSlash "f/../../x" = false
        ∧ (parseComponents "f/../../x").getLast?
            = some (Component.normal "x")
        ∧ isBlank "x".data = false
        ∧ (get_lazy ⟨[[], ["r"]], [⟨["r", "f"], 0, []⟩]⟩ ["r"] 5 "f/../../x"
              ⟨[9], none⟩).2
            = Except.error (Error.ioError IoError.notADir)
        ∧ Error.ioError IoError.notADir ≠ Error.pathTraversal) :=
  ⟨⟨by decide, rfl, rfl, by decide⟩,
   ⟨by decide, by decide, by decide, by decide, rfl, by decide⟩⟩

/-- C1 (amended).  Every relative path that passes the `InvalidPath`
validation (no trailing separator; a final component that is a plain
non-blank name) and whose lexical canonical resolution escapes the cache
root is rejected by `get_lazy` and `get` with `PathTraversal`, provided no
partial resolution of its parent components is a pre-existing regular file
(a blocking file surfaces an I/O error instead — second counterexample). -/
theorem path_traversal_rejection (fs : Fs) (now : Nat) (root : List String)
    (riv : Nat) (cb : Callback) (input : String) (n : String)
    (hwf : WF fs) (hroot : root ∈ fs.dirs)
    (hnof : ∀ qs, qs <+: (parseComponents input).dropLast →
        lookupFile fs.files (resolveComps root qs) = none)
    (hs : endsWithSlash input = false)
    (hlast : (parseComponents input).getLast? = some (Component.normal n))
    (hn : isBlank n.data = false)
    (hesc : ¬ root <+: resolveComps root (parseComponents input)) :
    (get_lazy fs root riv input cb).2 = Except.error Error.pathTraversal
      ∧ (get fs now root riv input cb).out
          = Except.error Error.pathTraversal := by
  have hdec : (parseComponents input).dropLast ++ [Component.normal n]
      = parseComponents input :=
    dropLast_append_of_getLast _ _ hlast
  have hescd : ¬ root <+: resolveComps root (parseComponents input).dropLast := by
    intro hcon
    apply hesc
    rw [← hdec, resolveComps_append]
    exact prefix_append_singleton root _ n hcon
  have hsne : ¬ endsWithSlash input = true := by
    rw [hs]
    exact Bool.false_ne_true
  have hnb : ¬ isBlank n.data = true := by
    rw [hn]
    exact Bool.false_ne_true
  rcases walkParents_characterization root (parseComponents input).dropLast fs
      root hwf hroot (List.prefix_refl root) hnof
    with herr | ⟨fsW, _, _, _, _, hpref⟩
  · cases hwp : walkParents root (parseComponents input).dropLast fs root with
    | mk fsW r =>
      rw [hwp] at herr
      have herr2 : r = Except.error Error.pathTraversal := herr
      have hgl : get_lazy fs root riv input cb
          = (fsW, Except.error Error.pathTraversal) := by
        simp only [get_lazy]
        rw [if_neg hsne]
        split
        · rename_i heq
          rw [heq] at hlast
          cases hlast
        · rename_i m heq
          have hmn : m = n := by
            rw [hlast] at heq
            injection heq with h1
            injection h1 with h2
            exact h2.symm
          subst hmn
          rw [if_neg hnb, hwp, herr2]
        · rename_i x hnotn heq
          rw [hlast] at heq
          injection heq with h2
          exact absurd h2.symm (hnotn n)
      refine ⟨by rw [hgl], ?_⟩
      simp only [get]
      rw [hgl]
  · exact absurd hpref hescd

/-- Witness for the amended C1 at the concrete escaping path
`"a/../../x"` on a root `["r"]`. -/
theorem path_traversal_rejection_witness :
    (get_lazy ⟨[[], ["r"]], []⟩ ["r"] 5 "a/../../x" ⟨[9], none⟩).2
      = Except.error Error.pathTraversal :=
  (path_traversal_rejection ⟨[[], ["r"]], []⟩ 0 ["r"] 5 ⟨[9], none⟩
    "a/../../x" "x" (by decide) (by decide) (fun qs hqs => rfl) (by decide)
    (by decide) (by decide) (by decide)).1

/-- C6.  Every relative path that is empty, whitespace-only, or ends in the
path separator is rejected by `get_lazy` and `get` with `InvalidPath`, with
no filesystem change and no producer call. -/
theorem invalid_path_rejection (fs : Fs) (now : Nat) (root : List String)
    (riv : Nat) (cb : Callback) (s : String)
    (h : s.data = [] ∨ s.data.all Char.isWhitespace = true
        ∨ s.data.getLast? = some '/') :
    get_lazy fs root riv s cb = (fs, Except.error (Error.invalidPath s))
      ∧ get fs now root riv s cb = ⟨fs, 0, Except.error (Error.invalidPath s)⟩ := by
  by_cases hs : endsWithSlash s = true
  · have hgl : get_lazy fs root riv s cb
        = (fs, Except.error (Error.invalidPath s)) := by
      unfold get_lazy
      rw [if_pos hs]
    exact ⟨hgl, by unfold get; rw [hgl]⟩
  · have hall : s.data.all Char.isWhitespace = true := by
      rcases h with h0 | h1 | h2
      · rw [h0]; rfl
      · exact h1
      · exact absurd (by unfold endsWithSlash; rw [h2]; decide) hs
    by_cases hnil : s.data = []
    · have hp : parseComponents s = [] := by
        unfold parseComponents
        rw [hnil]
        rfl
      have hgl : get_lazy fs root riv s cb
          = (fs, Except.error (Error.invalidPath s)) := by
        unfold get_lazy
        rw [if_neg hs]
        simp only [hp, List.getLast?_nil]
      exact ⟨hgl, by unfold get; rw [hgl]⟩
    · have hp := parseComponents_blank s hnil hall
      have hgl : get_lazy fs root riv s cb
          = (fs, Except.error (Error.invalidPath s)) := by
        unfold get_lazy
        rw [if_neg hs]
        simp only [hp, List.getLast?_singleton]
        have hb : isBlank (String.mk s.data).data = true := hall
        simp only [hb, if_true]
      exact ⟨hgl, by unfold get; rw [hgl]⟩

/-- Witness for C6 at the concrete whitespace-only input `" \t "`. -/
theorem invalid_path_rejection_witness :
    get_lazy ⟨[[], ["r"]], []⟩ ["r"] 5 " \t " ⟨[9], none⟩
      = (⟨[[], ["r"]], []⟩, Except.error (Error.invalidPath " \t ")) :=
  (invalid_path_rejection ⟨[[], ["r"]], []⟩ 0 ["r"] 5 ⟨[9], none⟩ " \t "
    (Or.inr (Or.inl (by decide)))).1

/-- C10.  `remove` on an entry whose backing path does not exist succeeds
and leaves the filesystem completely unchanged. -/
theorem remove_missing_noop (fs : Fs) (e : CacheLazyFile)
    (h : ¬ pathExists fs e.path) :
    CacheLazyFile.remove fs e = (fs, Except.ok ()) := by
  unfold CacheLazyFile.remove
  rw [if_neg h]

/-- Witness for C10 on a concrete filesystem without the entry's file. -/
theorem remove_missing_noop_witness :
    CacheLazyFile.remove ⟨[[], ["r"]], [⟨["r", "f"], 10, [1]⟩]⟩
        ⟨["r", "zz"], ⟨[9], none⟩, 5, ["r"], 5, false⟩
      = (⟨[[], ["r"]], [⟨["r", "f"], 10, [1]⟩]⟩, Except.ok ()) :=
  remove_missing_noop ⟨[[], ["r"]], [⟨["r", "f"], 10, [1]⟩]⟩
    ⟨["r", "zz"], ⟨[9], none⟩, 5, ["r"], 5, false⟩ (by decide)

end Fcache
